import Mathlib

/-!
Verification of the latency-aggregation service (`api/latency.py`).

The Python code is shallowly embedded over exact rationals (`ℚ`):
Python numbers become `ℚ`, Python exceptions become `Option` (a `none`
result models an uncaught exception), and the HTTP handler's core
aggregation path (filter, group by region, per-region metrics) becomes
the pure function `aggregate`.
-/

/-- Python `int(q)`: truncation toward zero (`int(2.7) = 2`, `int(-2.7) = -2`). -/
def pyInt (q : ℚ) : ℤ :=
  if 0 ≤ q then ⌊q⌋ else ⌈q⌉

/-- Python list indexing `l[i]`: a negative index counts from the end; an
index out of range raises (modelled as `none`). -/
def pyGet (l : List ℚ) (i : ℤ) : Option ℚ :=
  if 0 ≤ i then l.get? i.toNat
  else if 0 ≤ (l.length : ℤ) + i then l.get? ((l.length : ℤ) + i).toNat
  else none

/-- Embedding of `calculate_percentile(data, percentile)` from
`api/latency.py`.  Empty data returns `0.0`; otherwise the data is sorted
ascending, the fractional rank `index = (percentile / 100) * (len - 1)` is
taken, and the result is either the element at `index` (when `index` is an
integer, i.e. its denominator is 1) or the linear interpolation between the
elements at `int(index)` and `int(index) + 1`.  A `none` result models an
IndexError. -/
def calculate_percentile (data : List ℚ) (percentile : ℚ) : Option ℚ :=
  if data = [] then some 0
  else
    let sorted_data := data.insertionSort (· ≤ ·)
    let index := (percentile / 100) * ((sorted_data.length : ℚ) - 1)
    if index.den = 1 then
      pyGet sorted_data (pyInt index)
    else do
      let lower ← pyGet sorted_data (pyInt index)
      let upper ← pyGet sorted_data (pyInt index + 1)
      pure (lower + (upper - lower) * (index - (pyInt index : ℚ)))

/-- The body of `calculate_percentile` on the already-sorted list: the same
computation as `calculate_percentile` after its emptiness check and sorting. -/
def percentileBody (sorted_data : List ℚ) (percentile : ℚ) : Option ℚ :=
  let index := (percentile / 100) * ((sorted_data.length : ℚ) - 1)
  if index.den = 1 then
    pyGet sorted_data (pyInt index)
  else do
    let lower ← pyGet sorted_data (pyInt index)
    let upper ← pyGet sorted_data (pyInt index + 1)
    pure (lower + (upper - lower) * (index - (pyInt index : ℚ)))

/-- Transcription of the spec's description of the percentile estimator, for
comparison with `calculate_percentile`: sort ascending, take the fractional
rank `r = (p/100) * (n-1)`; if `r` lands exactly on an index return that
element, otherwise interpolate between the elements at the floor and the
ceiling of `r`, weighted by the fractional part of `r`.  (Out-of-range
indices read a default, so this version is total.) -/
def percentileSpec (samples : List ℚ) (p : ℚ) : ℚ :=
  let sorted := samples.insertionSort (· ≤ ·)
  let r := (p / 100) * ((sorted.length : ℚ) - 1)
  if r.den = 1 then sorted.getD ⌊r⌋.toNat 0
  else
    sorted.getD ⌊r⌋.toNat 0 +
      (sorted.getD ⌈r⌉.toNat 0 - sorted.getD ⌊r⌋.toNat 0) * (r - ⌊r⌋)

/-- One observation record of the dataset (`latency.json`). -/
structure LatencyRecord where
  region : String
  latency_ms : ℚ
  uptime_pct : ℚ
deriving DecidableEq

/-- The per-region accumulator built by the grouping loop of `handler`:
`{"latencies": [...], "uptimes": [...], "breaches": n}`. -/
structure RegionData where
  latencies : List ℚ
  uptimes : List ℚ
  breaches : ℕ
deriving DecidableEq

/-- The fresh accumulator `{"latencies": [], "uptimes": [], "breaches": 0}`. -/
def RegionData.empty : RegionData := ⟨[], [], 0⟩

/-- The loop body of `handler`'s grouping loop applied to one record:
append the record's latency and uptime and bump `breaches` when
`latency_ms > threshold_ms`. -/
def RegionData.add (threshold_ms : ℚ) (d : RegionData) (record : LatencyRecord) :
    RegionData :=
  { latencies := d.latencies ++ [record.latency_ms]
    uptimes := d.uptimes ++ [record.uptime_pct]
    breaches := d.breaches + (if threshold_ms < record.latency_ms then 1 else 0) }

/-- Folding a whole list of records into an accumulator with `RegionData.add`. -/
def RegionData.addAll (threshold_ms : ℚ) (d : RegionData) (records : List LatencyRecord) :
    RegionData :=
  records.foldl (RegionData.add threshold_ms) d

/-- One iteration of `handler`'s grouping loop over `region_data`, embedding the
Python dict as an insertion-ordered association list: if the record's region is
already a key, its entry is updated in place, otherwise a new entry is appended. -/
def groupStep (threshold_ms : ℚ) (acc : List (String × RegionData))
    (record : LatencyRecord) : List (String × RegionData) :=
  if acc.any (fun p => decide (p.1 = record.region)) then
    acc.map (fun p =>
      if p.1 = record.region then (p.1, RegionData.add threshold_ms p.2 record) else p)
  else
    acc ++ [(record.region, RegionData.add threshold_ms RegionData.empty record)]

/-- Per-region output metrics of the handler. -/
structure RegionMetrics where
  avg_latency : ℚ
  p95_latency : ℚ
  avg_uptime : ℚ
  breaches : ℕ
deriving DecidableEq

/-- Python `statistics.mean`. -/
def mean (l : List ℚ) : ℚ := l.sum / l.length

/-- Python `round(x, 2)`: round to two decimal places, ties to even. -/
def roundHalfEven (q : ℚ) : ℤ :=
  if q - ⌊q⌋ < 1/2 then ⌊q⌋
  else if 1/2 < q - ⌊q⌋ then ⌊q⌋ + 1
  else if Even ⌊q⌋ then ⌊q⌋ else ⌊q⌋ + 1

/-- Rounds a rational to two decimal places (Python `round(x, 2)`). -/
def round2 (q : ℚ) : ℚ := (roundHalfEven (q * 100) : ℚ) / 100

/-- The metrics computed by `handler` for one region's accumulated data:
mean latency, 95th-percentile latency, mean uptime (each rounded to two
decimals) and the breach count. -/
def regionMetrics (d : RegionData) : Option RegionMetrics :=
  (calculate_percentile d.latencies 95).map (fun p95 =>
    { avg_latency := round2 (mean d.latencies)
      p95_latency := round2 p95
      avg_uptime := round2 (mean d.uptimes)
      breaches := d.breaches })

/-- The metrics loop of `handler`: entries whose latency list is empty are
skipped (`continue`); the rest are mapped through `regionMetrics`. -/
def computeMetrics : List (String × RegionData) → Option (List (String × RegionMetrics))
  | [] => some []
  | (region, d) :: rest =>
    if d.latencies = [] then computeMetrics rest
    else do
      let m ← regionMetrics d
      let ms ← computeMetrics rest
      pure ((region, m) :: ms)

/-- Outcome of the handler's aggregation path: either the per-region result
map (insertion-ordered association list) or the 400 "No data found for
regions" error. -/
inductive AggResult where
  | ok (regions : List (String × RegionMetrics))
  | noMatchingData
deriving DecidableEq

/-- Embedding of the POST path of `handler` (`api/latency.py`) after request
validation and data loading: filter the dataset to the requested regions,
fail with `noMatchingData` when nothing matches, otherwise group by region
and compute each region's metrics.  A `none` result models an uncaught
exception (the 500 path). -/
def aggregate (dataset : List LatencyRecord) (regions : List String)
    (threshold_ms : ℚ) : Option AggResult :=
  let filtered_data := dataset.filter (fun record => decide (record.region ∈ regions))
  if filtered_data = [] then some AggResult.noMatchingData
  else
    let region_data := filtered_data.foldl (groupStep threshold_ms) []
    (computeMetrics region_data).map AggResult.ok

/-- Outcome of `load_latency_data`: the dataset, or one of the two distinct
failure modes (`dataUnavailable` for the explicit
"Latency data file not found" exception, `parseFailure` for a propagated
JSON decoding error). -/
inductive LoadOutcome where
  | ok (dataset : List LatencyRecord)
  | dataUnavailable
  | parseFailure
deriving DecidableEq

/-- State of one candidate file location: absent (`FileNotFoundError` on
open), present but not valid JSON, or present with a parsed dataset. -/
inductive FileState where
  | absent
  | unparsable
  | parsed (dataset : List LatencyRecord)
deriving DecidableEq

/-- Embedding of `load_latency_data` from `api/latency.py`, parameterised by
the state of the two file locations it consults (the path next to the
script, then `latency.json` in the current directory).  Only
`FileNotFoundError` is caught: a present-but-unparsable primary file
propagates its JSON error without consulting the fallback. -/
def load_latency_data (primary fallback : FileState) : LoadOutcome :=
  match primary with
  | FileState.parsed d => LoadOutcome.ok d
  | FileState.unparsable => LoadOutcome.parseFailure
  | FileState.absent =>
    match fallback with
    | FileState.parsed d => LoadOutcome.ok d
    | FileState.unparsable => LoadOutcome.parseFailure
    | FileState.absent => LoadOutcome.dataUnavailable

/-- The three-record dataset of the spec's concrete scenario. -/
def exampleDataset : List LatencyRecord :=
  [⟨"us-east", 100, 999/10⟩, ⟨"us-east", 200, 995/10⟩, ⟨"eu-west", 50, 100⟩]

/-- The metrics the spec's concrete scenario expects for region `us-east`. -/
def exampleMetrics : RegionMetrics :=
  { avg_latency := 150, p95_latency := 195, avg_uptime := 997/10, breaches := 1 }

/-- Unfolding `calculate_percentile` to the emptiness check followed by
`percentileBody` on the sorted samples. -/
lemma calculate_percentile_eq (data : List ℚ) (p : ℚ) :
    calculate_percentile data p =
      if data = [] then some 0
      else percentileBody (data.insertionSort (· ≤ ·)) p := rfl

/-- Python `int` truncation agrees with the floor on nonnegative rationals. -/
lemma pyInt_of_nonneg {q : ℚ} (h : 0 ≤ q) : pyInt q = ⌊q⌋ := if_pos h

/-- Python indexing with a nonnegative index is plain list lookup. -/
lemma pyGet_of_nonneg (l : List ℚ) {i : ℤ} (h : 0 ≤ i) :
    pyGet l i = l.get? i.toNat := if_pos h

/-- Python indexing succeeds on an in-range nonnegative index. -/
lemma pyGet_eq_some (l : List ℚ) {i : ℤ} (h : 0 ≤ i) (hlt : i.toNat < l.length) :
    pyGet l i = some (l.get ⟨i.toNat, hlt⟩) := by
  rw [pyGet_of_nonneg l h, List.get?_eq_get hlt]

/-- List lookup with a default agrees with `get` on an in-range index. -/
lemma getD_eq_get (l : List ℚ) (n : ℕ) (h : n < l.length) :
    l.getD n 0 = l.get ⟨n, h⟩ := by
  rw [List.getD_eq_get?, List.get?_eq_get h]
  rfl

/-- The fractional rank `(p/100) * (n-1)` is between `0` and `n-1` when the
percentile argument is between `0` and `100` and the list is nonempty. -/
lemma index_bounds {n : ℕ} {p : ℚ} (hn : 1 ≤ n) (h0 : 0 ≤ p) (h1 : p ≤ 100) :
    0 ≤ (p / 100) * ((n : ℚ) - 1) ∧ (p / 100) * ((n : ℚ) - 1) ≤ (n : ℚ) - 1 := by
  have hn' : (1 : ℚ) ≤ (n : ℚ) := by exact_mod_cast hn
  constructor
  · exact mul_nonneg (by positivity) (by linarith)
  · have hp : p / 100 ≤ 1 := (div_le_one (by norm_num)).mpr h1
    exact mul_le_of_le_one_left (by linarith) hp

/-- The floor of a fractional rank bounded by `n - 1` is an in-range index. -/
lemma floor_index_mem {q : ℚ} {n : ℕ} (h0 : 0 ≤ q) (hle : q ≤ (n : ℚ) - 1)
    (hn : 1 ≤ n) : 0 ≤ ⌊q⌋ ∧ ⌊q⌋.toNat < n := by
  have h1 : 0 ≤ ⌊q⌋ := Int.floor_nonneg.mpr h0
  have h2 : ⌊q⌋ ≤ (n : ℤ) - 1 := by
    have h3 : (⌊q⌋ : ℚ) ≤ (n : ℚ) - 1 := le_trans (Int.floor_le q) hle
    exact_mod_cast h3
  omega

/-- When the fractional rank is not an integer, the successor of its floor is
still an in-range index. -/
lemma floor_index_succ_mem {q : ℚ} {n : ℕ} (h0 : 0 ≤ q) (hle : q ≤ (n : ℚ) - 1)
    (hn : 1 ≤ n) (hden : q.den ≠ 1) : ⌊q⌋.toNat + 1 < n := by
  have hne : q ≠ (n : ℚ) - 1 := by
    intro he
    apply hden
    have h4 : q = ((n - 1 : ℤ) : ℚ) := by rw [he]; push_cast; ring
    rw [h4]
    exact Rat.den_intCast _
  have hlt : q < (n : ℚ) - 1 := lt_of_le_of_ne hle hne
  have h5 : ⌊q⌋ < (n : ℤ) - 1 := by
    rw [Int.floor_lt]
    push_cast
    exact hlt
  have h1 : 0 ≤ ⌊q⌋ := Int.floor_nonneg.mpr h0
  omega

/-- A rational whose denominator is not `1` is strictly above its floor. -/
lemma floor_lt_of_den_ne_one {q : ℚ} (hden : q.den ≠ 1) : (⌊q⌋ : ℚ) < q := by
  refine lt_of_le_of_ne (Int.floor_le q) fun he => hden ?_
  rw [← he]
  exact Rat.den_intCast _

/-- The ceiling of a non-integral rational is the successor of its floor. -/
lemma ceil_eq_floor_succ {q : ℚ} (hden : q.den ≠ 1) : ⌈q⌉ = ⌊q⌋ + 1 := by
  rw [Int.ceil_eq_iff]
  constructor
  · push_cast
    have h6 : (⌊q⌋ : ℚ) < q := floor_lt_of_den_ne_one hden
    linarith
  · push_cast
    have h7 : q < (⌊q⌋ : ℚ) + 1 := Int.lt_floor_add_one q
    linarith

/-- Full evaluation of `percentileBody` on a nonempty list for a percentile
between `0` and `100`: the lookups succeed and the result is the
floor/ceiling interpolation formula. -/
lemma percentileBody_eq (s : List ℚ) (p : ℚ) (hs : s ≠ []) (h0 : 0 ≤ p)
    (h1 : p ≤ 100) :
    percentileBody s p =
      some (if ((p / 100) * ((s.length : ℚ) - 1)).den = 1
        then s.getD ⌊(p / 100) * ((s.length : ℚ) - 1)⌋.toNat 0
        else s.getD ⌊(p / 100) * ((s.length : ℚ) - 1)⌋.toNat 0 +
          (s.getD ⌈(p / 100) * ((s.length : ℚ) - 1)⌉.toNat 0 -
              s.getD ⌊(p / 100) * ((s.length : ℚ) - 1)⌋.toNat 0) *
            ((p / 100) * ((s.length : ℚ) - 1) -
              (⌊(p / 100) * ((s.length : ℚ) - 1)⌋ : ℚ))) := by
  have hn : 1 ≤ s.length := List.length_pos.mpr hs
  obtain ⟨hr0, hr1⟩ := index_bounds (p := p) hn h0 h1
  obtain ⟨hf0, hflt⟩ := floor_index_mem hr0 hr1 hn
  unfold percentileBody
  by_cases hden : ((p / 100) * ((s.length : ℚ) - 1)).den = 1
  · rw [if_pos hden, if_pos hden, pyInt_of_nonneg hr0,
      pyGet_eq_some s hf0 hflt, getD_eq_get s _ hflt]
  · have hsucc : ⌊(p / 100) * ((s.length : ℚ) - 1)⌋.toNat + 1 < s.length :=
      floor_index_succ_mem hr0 hr1 hn hden
    have hf0' : (0 : ℤ) ≤ ⌊(p / 100) * ((s.length : ℚ) - 1)⌋ + 1 := by omega
    have htn : (⌊(p / 100) * ((s.length : ℚ) - 1)⌋ + 1).toNat =
        ⌊(p / 100) * ((s.length : ℚ) - 1)⌋.toNat + 1 := by omega
    have hlt' : (⌊(p / 100) * ((s.length : ℚ) - 1)⌋ + 1).toNat < s.length := by
      omega
    rw [if_neg hden, if_neg hden, pyInt_of_nonneg hr0,
      pyGet_eq_some s hf0 hflt, pyGet_eq_some s hf0' hlt']
    have hceil : ⌈(p / 100) * ((s.length : ℚ) - 1)⌉ = ⌊(p / 100) * ((s.length : ℚ) - 1)⌋ + 1 :=
      ceil_eq_floor_succ hden
    rw [getD_eq_get s _ hflt, hceil, getD_eq_get s _ hlt']
    simp only [Option.bind_eq_bind, Option.some_bind, htn]
    rfl

/-- Sorting a nonempty list yields a nonempty list. -/
lemma insertionSort_ne_nil {l : List ℚ} (h : l ≠ []) :
    l.insertionSort (· ≤ ·) ≠ [] := by
  intro he
  apply h
  have hp := List.perm_insertionSort (fun a b : ℚ => a ≤ b) l
  rw [he] at hp
  exact hp.symm.eq_nil

/-- Sorting preserves the length of the list. -/
lemma insertionSort_length (l : List ℚ) :
    (l.insertionSort (· ≤ ·)).length = l.length :=
  (List.perm_insertionSort _ l).length_eq

/-- The head of a sorted list is a lower bound for its elements. -/
lemma sorted_get_zero_le (s : List ℚ) (hsort : List.Sorted (· ≤ ·) s)
    (h : 0 < s.length) : ∀ x ∈ s, s.get ⟨0, h⟩ ≤ x := by
  intro x hx
  obtain ⟨i, rfl⟩ := List.mem_iff_get.mp hx
  exact List.Sorted.rel_get_of_le hsort (by simp [Fin.le_def])

/-- The last element of a sorted list is an upper bound for its elements. -/
lemma sorted_le_get_last (s : List ℚ) (hsort : List.Sorted (· ≤ ·) s)
    (h : s.length - 1 < s.length) : ∀ x ∈ s, x ≤ s.get ⟨s.length - 1, h⟩ := by
  intro x hx
  obtain ⟨i, rfl⟩ := List.mem_iff_get.mp hx
  refine List.Sorted.rel_get_of_le hsort ?_
  have hi := i.isLt
  rw [Fin.le_def]
  simp only []
  omega

/-- Claim C8: `calculate_percentile` applied to the empty sample list returns
`0` (a defined default wrapped in `some`, not an error) for every percentile
argument. -/
theorem percentile_empty (p : ℚ) : calculate_percentile [] p = some 0 := rfl

/-- Claim C2: on a nonempty sample list and a percentile between `0` and
`100`, `calculate_percentile` computes exactly the spec's
linear-interpolation-between-closest-ranks estimator: sort ascending, take
the fractional rank `r = (p/100) * (n-1)`, return the element at `r` when
`r` is an integer and otherwise interpolate between the elements at the
floor and the ceiling of `r`, weighted by the fractional part of `r`. -/
theorem percentile_linear_interpolation (samples : List ℚ) (p : ℚ)
    (hne : samples ≠ []) (h0 : 0 ≤ p) (h1 : p ≤ 100) :
    calculate_percentile samples p = some (percentileSpec samples p) := by
  rw [calculate_percentile_eq, if_neg hne,
    percentileBody_eq _ p (insertionSort_ne_nil hne) h0 h1]
  rfl

/-- Witness for C2 at a concrete input. -/
theorem percentile_linear_interpolation_witness :
    calculate_percentile [1, 2] 95 = some (percentileSpec [1, 2] 95) :=
  percentile_linear_interpolation [1, 2] 95 (by decide) (by norm_num)
    (by norm_num)

/-- Claim C10: on a nonempty sample list and a percentile between `0` and
`100`, `calculate_percentile` never indexes out of bounds: `int(index)` lies
in `[0, n-1]`, in the interpolation branch `int(index) + 1` also lies in
`[0, n-1]`, and the computation returns a value. -/
theorem percentile_index_safe (data : List ℚ) (p : ℚ) (hne : data ≠ [])
    (h0 : 0 ≤ p) (h1 : p ≤ 100) :
    0 ≤ pyInt ((p / 100) * ((data.length : ℚ) - 1)) ∧
    (pyInt ((p / 100) * ((data.length : ℚ) - 1))).toNat ≤ data.length - 1 ∧
    (((p / 100) * ((data.length : ℚ) - 1)).den ≠ 1 →
      (pyInt ((p / 100) * ((data.length : ℚ) - 1))).toNat + 1 ≤ data.length - 1) ∧
    ∃ v, calculate_percentile data p = some v := by
  have hn : 1 ≤ data.length := List.length_pos.mpr hne
  obtain ⟨hr0, hr1⟩ := index_bounds (p := p) hn h0 h1
  obtain ⟨hf0, hflt⟩ := floor_index_mem hr0 hr1 hn
  rw [pyInt_of_nonneg hr0]
  refine ⟨hf0, by omega, fun hden => ?_, ?_⟩
  · have hsucc := floor_index_succ_mem hr0 hr1 hn hden
    omega
  · rw [calculate_percentile_eq, if_neg hne,
      percentileBody_eq _ p (insertionSort_ne_nil hne) h0 h1]
    exact ⟨_, rfl⟩

/-- Witness for C10 at a concrete input. -/
theorem percentile_index_safe_witness :
    0 ≤ pyInt ((95 / 100) * ((([1, 2] : List ℚ).length : ℚ) - 1)) :=
  (percentile_index_safe [1, 2] 95 (by decide) (by norm_num) (by norm_num)).1

/-- Claim C7: `calculate_percentile` is invariant under reordering of its
samples: permuted inputs give identical results for every percentile. -/
theorem percentile_perm_invariant (p : ℚ) (l l' : List ℚ) (h : l.Perm l') :
    calculate_percentile l p = calculate_percentile l' p := by
  have hsort : l.insertionSort (· ≤ ·) = l'.insertionSort (· ≤ ·) :=
    List.eq_of_perm_of_sorted
      ((List.perm_insertionSort _ l).trans
        (h.trans (List.perm_insertionSort _ l').symm))
      (List.sorted_insertionSort _ l) (List.sorted_insertionSort _ l')
  have hiff : l = [] ↔ l' = [] := by
    constructor
    · intro e
      rw [e] at h
      exact h.symm.eq_nil
    · intro e
      rw [e] at h
      exact h.eq_nil
  rw [calculate_percentile_eq, calculate_percentile_eq, hsort]
  by_cases hl : l = []
  · rw [if_pos hl, if_pos (hiff.mp hl)]
  · rw [if_neg hl, if_neg fun e => hl (hiff.mpr e)]

/-- Witness for C7 at a concrete input. -/
theorem percentile_perm_invariant_witness :
    calculate_percentile [1, 2] 95 = calculate_percentile [2, 1] 95 :=
  percentile_perm_invariant 95 [1, 2] [2, 1] (by with_unfolding_all decide)

/-- Claim C6: on a nonempty sample list, `calculate_percentile` at `0`
returns the minimum of the samples and at `100` returns the maximum. -/
theorem percentile_min_max (samples : List ℚ) (hne : samples ≠ []) :
    (∃ m, calculate_percentile samples 0 = some m ∧ m ∈ samples ∧
      ∀ x ∈ samples, m ≤ x) ∧
    (∃ m, calculate_percentile samples 100 = some m ∧ m ∈ samples ∧
      ∀ x ∈ samples, x ≤ m) := by
  have hs : samples.insertionSort (· ≤ ·) ≠ [] := insertionSort_ne_nil hne
  have hn : 1 ≤ (samples.insertionSort (· ≤ ·)).length := List.length_pos.mpr hs
  have hperm := List.perm_insertionSort (fun a b : ℚ => a ≤ b) samples
  have hsort := List.sorted_insertionSort (fun a b : ℚ => a ≤ b) samples
  constructor
  · rw [calculate_percentile_eq, if_neg hne,
      percentileBody_eq _ 0 hs (by norm_num) (by norm_num)]
    have hr : ((0 : ℚ) / 100) *
        (((samples.insertionSort (· ≤ ·)).length : ℚ) - 1) = 0 := by norm_num
    rw [hr]
    have hden : (0 : ℚ).den = 1 := rfl
    rw [if_pos hden]
    have h0lt : 0 < (samples.insertionSort (· ≤ ·)).length := hn
    have hfl : (⌊(0 : ℚ)⌋).toNat = 0 := by
      rw [Int.floor_zero]
      rfl
    rw [hfl, getD_eq_get _ 0 h0lt]
    refine ⟨_, rfl, ?_, ?_⟩
    · exact hperm.subset (List.get_mem _ _ _)
    · intro x hx
      exact sorted_get_zero_le _ hsort h0lt x (hperm.mem_iff.mpr hx)
  · rw [calculate_percentile_eq, if_neg hne,
      percentileBody_eq _ 100 hs (by norm_num) (by norm_num)]
    have hr : ((100 : ℚ) / 100) *
        (((samples.insertionSort (· ≤ ·)).length : ℚ) - 1) =
        (((samples.insertionSort (· ≤ ·)).length : ℤ) - 1 : ℤ) := by
      push_cast
      ring
    rw [hr]
    rw [if_pos (Rat.den_intCast _), Int.floor_intCast]
    have htn : (((samples.insertionSort (· ≤ ·)).length : ℤ) - 1).toNat =
        (samples.insertionSort (· ≤ ·)).length - 1 := by omega
    have hlast : (samples.insertionSort (· ≤ ·)).length - 1 <
        (samples.insertionSort (· ≤ ·)).length := by omega
    rw [htn, getD_eq_get _ _ hlast]
    refine ⟨_, rfl, ?_, ?_⟩
    · exact hperm.subset (List.get_mem _ _ _)
    · intro x hx
      exact sorted_le_get_last _ hsort hlast x (hperm.mem_iff.mpr hx)

/-- Witness for C6 at a concrete input. -/
theorem percentile_min_max_witness :
    ∃ m, calculate_percentile [2, 1] 0 = some m ∧ m ∈ ([2, 1] : List ℚ) ∧
      ∀ x ∈ ([2, 1] : List ℚ), m ≤ x :=
  (percentile_min_max [2, 1] (by decide)).1

/-- Folding one more record first is the same as starting the fold from the
extended accumulator. -/
lemma addAll_cons (t : ℚ) (d : RegionData) (r : LatencyRecord)
    (l : List LatencyRecord) :
    RegionData.addAll t d (r :: l) =
      RegionData.addAll t (RegionData.add t d r) l := rfl

/-- The latencies accumulated by `RegionData.addAll` are the latencies of the
folded records, appended in order. -/
lemma addAll_latencies (t : ℚ) (l : List LatencyRecord) (d : RegionData) :
    (RegionData.addAll t d l).latencies =
      d.latencies ++ l.map (fun r => r.latency_ms) := by
  induction l generalizing d with
  | nil => simp [RegionData.addAll]
  | cons r l ih =>
    rw [addAll_cons, ih]
    simp [RegionData.add]

/-- The uptimes accumulated by `RegionData.addAll` are the uptimes of the
folded records, appended in order. -/
lemma addAll_uptimes (t : ℚ) (l : List LatencyRecord) (d : RegionData) :
    (RegionData.addAll t d l).uptimes =
      d.uptimes ++ l.map (fun r => r.uptime_pct) := by
  induction l generalizing d with
  | nil => simp [RegionData.addAll]
  | cons r l ih =>
    rw [addAll_cons, ih]
    simp [RegionData.add]

/-- The breach count accumulated by `RegionData.addAll` counts the folded
records whose latency strictly exceeds the threshold. -/
lemma addAll_breaches (t : ℚ) (l : List LatencyRecord) (d : RegionData) :
    (RegionData.addAll t d l).breaches =
      d.breaches + l.countP (fun r => decide (t < r.latency_ms)) := by
  induction l generalizing d with
  | nil => simp [RegionData.addAll]
  | cons r l ih =>
    rw [addAll_cons, ih]
    by_cases h : t < r.latency_ms <;>
      simp [RegionData.add, List.countP_cons, h] <;> omega

/-- A key different from the incoming record's region is untouched by one
grouping step. -/
lemma mem_groupStep_ne (t : ℚ) (acc : List (String × RegionData))
    (rec : LatencyRecord) (k : String) (hk : k ≠ rec.region) (d : RegionData) :
    ((k, d) ∈ groupStep t acc rec) ↔ (k, d) ∈ acc := by
  unfold groupStep
  by_cases h : acc.any (fun p => decide (p.1 = rec.region))
  · rw [if_pos h]
    constructor
    · intro hm
      obtain ⟨p, hp, he⟩ := List.mem_map.mp hm
      by_cases hp1 : p.1 = rec.region
      · rw [if_pos hp1] at he
        have h1 : p.1 = k := congrArg Prod.fst he
        exact absurd (h1 ▸ hp1) hk
      · rw [if_neg hp1] at he
        exact he ▸ hp
    · intro hm
      refine List.mem_map.mpr ⟨(k, d), hm, ?_⟩
      rw [if_neg]
      exact hk
  · rw [if_neg h]
    simp only [List.mem_append, List.mem_singleton]
    constructor
    · rintro (hm | he)
      · exact hm
      · exact absurd (congrArg Prod.fst he) (by simp [hk])
    · exact fun hm => Or.inl hm

/-- After one grouping step, the entry at the incoming record's region is the
previous entry extended with the record, or a fresh entry when the key was
absent. -/
lemma mem_groupStep_eq (t : ℚ) (acc : List (String × RegionData))
    (rec : LatencyRecord) (d : RegionData) :
    ((rec.region, d) ∈ groupStep t acc rec) ↔
      ((∃ d1, (rec.region, d1) ∈ acc ∧ d = RegionData.add t d1 rec) ∨
        ((∀ d1, (rec.region, d1) ∉ acc) ∧
          d = RegionData.add t RegionData.empty rec)) := by
  unfold groupStep
  by_cases h : acc.any (fun p => decide (p.1 = rec.region))
  · rw [if_pos h]
    have habs : ∃ d1, (rec.region, d1) ∈ acc := by
      obtain ⟨p, hp, hpe⟩ := List.any_eq_true.mp h
      obtain ⟨k1, d1⟩ := p
      refine ⟨d1, ?_⟩
      have : k1 = rec.region := of_decide_eq_true hpe
      rw [← this]
      exact hp
    constructor
    · intro hm
      obtain ⟨p, hp, he⟩ := List.mem_map.mp hm
      by_cases hp1 : p.1 = rec.region
      · rw [if_pos hp1] at he
        obtain ⟨k1, d1⟩ := p
        left
        refine ⟨d1, ?_, ?_⟩
        · have hk1 : k1 = rec.region := hp1
          rw [← hk1]
          exact hp
        · have := congrArg Prod.snd he
          simp at this
          exact this.symm
      · rw [if_neg hp1] at he
        exact absurd (congrArg Prod.fst he) (by simp [hp1])
    · rintro (⟨d1, hd1, rfl⟩ | ⟨hnone, rfl⟩)
      · refine List.mem_map.mpr ⟨(rec.region, d1), hd1, ?_⟩
        rw [if_pos rfl]
      · exact absurd habs (by simpa using hnone)
  · rw [if_neg h]
    have hnone : ∀ d1, (rec.region, d1) ∉ acc := by
      intro d1 hd1
      apply h
      exact List.any_eq_true.mpr ⟨(rec.region, d1), hd1, by simp⟩
    simp only [List.mem_append, List.mem_singleton]
    constructor
    · rintro (hm | he)
      · exact absurd hm (hnone d)
      · right
        exact ⟨hnone, (congrArg Prod.snd he)⟩
    · rintro (⟨d1, hd1, _⟩ | ⟨_, rfl⟩)
      · exact absurd hd1 (hnone d1)
      · right
        rfl

/-- One grouping step always leaves an entry at the incoming record's region. -/
lemma groupStep_mem_self (t : ℚ) (acc : List (String × RegionData))
    (rec : LatencyRecord) : ∃ d, (rec.region, d) ∈ groupStep t acc rec := by
  rw [exists_congr (fun d => mem_groupStep_eq t acc rec d)]
  by_cases h : ∃ d1, (rec.region, d1) ∈ acc
  · obtain ⟨d1, hd1⟩ := h
    exact ⟨RegionData.add t d1 rec, Or.inl ⟨d1, hd1, rfl⟩⟩
  · exact ⟨RegionData.add t RegionData.empty rec,
      Or.inr ⟨fun d1 hd1 => h ⟨d1, hd1⟩, rfl⟩⟩

/-- Characterisation of the grouping fold of `handler`: an entry `(k, d)` of
the folded association list either extends an entry of the initial
accumulator with all folded records of region `k`, or (when `k` was absent)
is built from exactly the folded records of region `k`, which must be
nonempty. -/
lemma mem_foldl_groupStep (t : ℚ) (l : List LatencyRecord)
    (acc : List (String × RegionData)) (k : String) (d : RegionData) :
    ((k, d) ∈ l.foldl (groupStep t) acc) ↔
      ((∃ d0, (k, d0) ∈ acc ∧
          d = RegionData.addAll t d0 (l.filter (fun r => decide (r.region = k)))) ∨
        ((∀ d0, (k, d0) ∉ acc) ∧
          (l.filter (fun r => decide (r.region = k))) ≠ [] ∧
          d = RegionData.addAll t RegionData.empty
            (l.filter (fun r => decide (r.region = k))))) := by
  induction l generalizing acc with
  | nil =>
    simp [RegionData.addAll]
  | cons r l ih =>
    rw [List.foldl_cons, ih]
    by_cases hk : r.region = k
    · have hfil : (r :: l).filter (fun r => decide (r.region = k)) =
          r :: l.filter (fun r => decide (r.region = k)) := by
        rw [List.filter_cons_of_pos]
        simp [hk]
      rw [hfil]
      subst hk
      constructor
      · rintro (⟨d0, hd0, rfl⟩ | ⟨hnone, _, _⟩)
        · rw [mem_groupStep_eq] at hd0
          rcases hd0 with ⟨d1, hd1, rfl⟩ | ⟨hnone, rfl⟩
          · exact Or.inl ⟨d1, hd1, (addAll_cons _ _ _ _).symm⟩
          · exact Or.inr ⟨hnone, List.cons_ne_nil _ _, (addAll_cons _ _ _ _).symm⟩
        · obtain ⟨d2, hd2⟩ := groupStep_mem_self t acc r
          exact absurd hd2 (hnone d2)
      · rintro (⟨d0, hd0, rfl⟩ | ⟨hnone, _, rfl⟩)
        · refine Or.inl ⟨RegionData.add t d0 r, ?_, addAll_cons _ _ _ _⟩
          rw [mem_groupStep_eq]
          exact Or.inl ⟨d0, hd0, rfl⟩
        · refine Or.inl ⟨RegionData.add t RegionData.empty r, ?_, addAll_cons _ _ _ _⟩
          rw [mem_groupStep_eq]
          exact Or.inr ⟨hnone, rfl⟩
    · have hfil : (r :: l).filter (fun r => decide (r.region = k)) =
          l.filter (fun r => decide (r.region = k)) := by
        rw [List.filter_cons_of_neg]
        simp [hk]
      have hkne : k ≠ r.region := fun e => hk e.symm
      rw [hfil]
      simp only [mem_groupStep_ne t acc r k hkne]

/-- The 95th percentile always evaluates successfully (p = 95 is in range). -/
lemma percentile95_exists (data : List ℚ) :
    ∃ v, calculate_percentile data 95 = some v := by
  by_cases h : data = []
  · exact ⟨0, by rw [h]; rfl⟩
  · rw [calculate_percentile_eq, if_neg h,
      percentileBody_eq _ 95 (insertionSort_ne_nil h) (by norm_num) (by norm_num)]
    exact ⟨_, rfl⟩

/-- A successful `regionMetrics` reports exactly the accumulator's breach
count. -/
lemma regionMetrics_breaches (d : RegionData) (m : RegionMetrics)
    (h : regionMetrics d = some m) : m.breaches = d.breaches := by
  unfold regionMetrics at h
  cases hc : calculate_percentile d.latencies 95 with
  | none =>
    rw [hc, Option.map_none'] at h
    exact Option.noConfusion h
  | some v =>
    rw [hc] at h
    simp only [Option.map_some'] at h
    rw [← Option.some_inj.mp h]

/-- The metrics loop never fails: every region entry yields metrics. -/
lemma computeMetrics_exists (rd : List (String × RegionData)) :
    ∃ ms, computeMetrics rd = some ms := by
  induction rd with
  | nil => exact ⟨[], rfl⟩
  | cons p rest ih =>
    obtain ⟨ms, hms⟩ := ih
    obtain ⟨region, d⟩ := p
    by_cases h : d.latencies = []
    · exact ⟨ms, by rw [show computeMetrics ((region, d) :: rest) =
        computeMetrics rest from if_pos h, hms]⟩
    · obtain ⟨v, hv⟩ := percentile95_exists d.latencies
      refine ⟨(region,
        { avg_latency := round2 (mean d.latencies)
          p95_latency := round2 v
          avg_uptime := round2 (mean d.uptimes)
          breaches := d.breaches }) :: ms, ?_⟩
      rw [show computeMetrics ((region, d) :: rest) =
        (if d.latencies = [] then computeMetrics rest
          else do
            let m ← regionMetrics d
            let ms ← computeMetrics rest
            pure ((region, m) :: ms)) from rfl]
      rw [if_neg h, hms]
      unfold regionMetrics
      rw [hv]
      rfl

/-- Every entry of a successful metrics loop comes from an entry of the
grouped data with nonempty latencies, and carries its breach count. -/
lemma mem_computeMetrics (rd : List (String × RegionData))
    (ms : List (String × RegionMetrics)) (h : computeMetrics rd = some ms)
    (k : String) (m : RegionMetrics) (hm : (k, m) ∈ ms) :
    ∃ d, (k, d) ∈ rd ∧ d.latencies ≠ [] ∧ regionMetrics d = some m := by
  induction rd generalizing ms with
  | nil =>
    rw [show computeMetrics [] = some [] from rfl] at h
    rw [← Option.some_inj.mp h] at hm
    exact absurd hm (List.not_mem_nil _)
  | cons p rest ih =>
    obtain ⟨region, d⟩ := p
    by_cases hlat : d.latencies = []
    · rw [show computeMetrics ((region, d) :: rest) =
        computeMetrics rest from if_pos hlat] at h
      obtain ⟨d1, hd1, hd2, hd3⟩ := ih ms h hm
      exact ⟨d1, List.mem_cons_of_mem _ hd1, hd2, hd3⟩
    · rw [show computeMetrics ((region, d) :: rest) =
        (if d.latencies = [] then computeMetrics rest
          else do
            let m ← regionMetrics d
            let ms ← computeMetrics rest
            pure ((region, m) :: ms)) from rfl, if_neg hlat] at h
      cases hr : regionMetrics d with
      | none => rw [hr] at h; simp at h
      | some m0 =>
        rw [hr] at h
        cases hrest : computeMetrics rest with
        | none => rw [hrest] at h; simp at h
        | some ms0 =>
          rw [hrest] at h
          simp only [Option.bind_eq_bind, Option.some_bind] at h
          rw [← Option.some_inj.mp h] at hm
          rcases List.mem_cons.mp hm with he | ht
          · have hk : region = k := (congrArg Prod.fst he).symm
            have hmm : m0 = m := (congrArg Prod.snd he).symm
            refine ⟨d, ?_, hlat, ?_⟩
            · rw [← hk]
              exact List.mem_cons_self _ _
            · rw [hr, hmm]
          · obtain ⟨d1, hd1, hd2, hd3⟩ := ih ms0 hrest ht
            exact ⟨d1, List.mem_cons_of_mem _ hd1, hd2, hd3⟩

/-- Unfolding `aggregate` to its filter check followed by grouping and the
metrics loop. -/
lemma aggregate_eq (dataset : List LatencyRecord) (regions : List String)
    (t : ℚ) :
    aggregate dataset regions t =
      if dataset.filter (fun r => decide (r.region ∈ regions)) = [] then
        some AggResult.noMatchingData
      else
        (computeMetrics
          ((dataset.filter (fun r => decide (r.region ∈ regions))).foldl
            (groupStep t) [])).map AggResult.ok := rfl

/-- Destructuring a successful aggregation: each reported region has at least
one matching filtered record, and its reported breach count is the number of
filtered records of that region whose latency strictly exceeds the
threshold. -/
lemma aggregate_ok_mem (dataset : List LatencyRecord) (regions : List String)
    (t : ℚ) (res : List (String × RegionMetrics))
    (hagg : aggregate dataset regions t = some (AggResult.ok res))
    (k : String) (m : RegionMetrics) (hm : (k, m) ∈ res) :
    ((dataset.filter (fun r => decide (r.region ∈ regions))).filter
        (fun r => decide (r.region = k))) ≠ [] ∧
    m.breaches = ((dataset.filter (fun r => decide (r.region ∈ regions))).filter
        (fun r => decide (r.region = k))).countP
      (fun r => decide (t < r.latency_ms)) := by
  rw [aggregate_eq] at hagg
  by_cases hfil : dataset.filter (fun r => decide (r.region ∈ regions)) = []
  · rw [if_pos hfil] at hagg
    exact AggResult.noConfusion (Option.some_inj.mp hagg)
  · rw [if_neg hfil] at hagg
    cases hcm : computeMetrics
        ((dataset.filter (fun r => decide (r.region ∈ regions))).foldl
          (groupStep t) []) with
    | none =>
      rw [hcm, Option.map_none'] at hagg
      exact Option.noConfusion hagg
    | some ms =>
      rw [hcm] at hagg
      simp only [Option.map_some', Option.some_inj, AggResult.ok.injEq] at hagg
      rw [← hagg] at hm
      obtain ⟨d, hd, hlat, hmet⟩ := mem_computeMetrics _ _ hcm k m hm
      rw [mem_foldl_groupStep] at hd
      rcases hd with ⟨d0, hd0, _⟩ | ⟨_, hne, hdef⟩
      · exact absurd hd0 (List.not_mem_nil _)
      · refine ⟨hne, ?_⟩
        rw [regionMetrics_breaches d m hmet, hdef, addAll_breaches]
        simp [RegionData.empty]

set_option maxRecDepth 8000

/-- Claim C1: on the spec's concrete dataset with `regions = ["us-east"]` and
`threshold_ms = 150`, the aggregation succeeds and returns exactly
`us-east -> {avg_latency: 150.0, p95_latency: 195.0, avg_uptime: 99.7,
breaches: 1}`. -/
theorem aggregate_example_scenario :
    aggregate exampleDataset ["us-east"] 150 =
      some (AggResult.ok [("us-east", exampleMetrics)]) := by
  with_unfolding_all decide

/-- Claim C3: the aggregation fails with `noMatchingData` exactly when no
dataset record's region is among the requested regions; when at least one
record matches it succeeds; and every region key of a successful result has
a matching record in the dataset (so a requested region with no records is
silently omitted, never an error and never a placeholder entry). -/
theorem aggregate_no_matching_data (dataset : List LatencyRecord)
    (regions : List String) (t : ℚ) :
    (aggregate dataset regions t = some AggResult.noMatchingData ↔
      ∀ r ∈ dataset, r.region ∉ regions) ∧
    ((∃ r ∈ dataset, r.region ∈ regions) →
      ∃ res, aggregate dataset regions t = some (AggResult.ok res)) ∧
    (∀ res, aggregate dataset regions t = some (AggResult.ok res) →
      ∀ k m, (k, m) ∈ res → k ∈ regions ∧ ∃ r ∈ dataset, r.region = k) := by
  have hfiff : dataset.filter (fun r => decide (r.region ∈ regions)) = [] ↔
      ∀ r ∈ dataset, r.region ∉ regions := by
    rw [List.filter_eq_nil]
    constructor
    · intro h r hr hreg
      exact absurd (decide_eq_true hreg) (h r hr)
    · intro h r hr
      simp [h r hr]
  refine ⟨?_, ?_, ?_⟩
  · by_cases hfil : dataset.filter (fun r => decide (r.region ∈ regions)) = []
    · rw [aggregate_eq, if_pos hfil]
      exact ⟨fun _ => hfiff.mp hfil, fun _ => rfl⟩
    · rw [aggregate_eq, if_neg hfil]
      constructor
      · intro h
        obtain ⟨ms, hms⟩ := computeMetrics_exists
          ((dataset.filter (fun r => decide (r.region ∈ regions))).foldl
            (groupStep t) [])
        rw [hms] at h
        exact AggResult.noConfusion (Option.some_inj.mp h)
      · intro h
        exact absurd (hfiff.mpr h) hfil
  · rintro ⟨r, hr, hreg⟩
    have hfil : dataset.filter (fun r => decide (r.region ∈ regions)) ≠ [] :=
      fun he => absurd hreg (hfiff.mp he r hr)
    rw [aggregate_eq, if_neg hfil]
    obtain ⟨ms, hms⟩ := computeMetrics_exists
      ((dataset.filter (fun r => decide (r.region ∈ regions))).foldl
        (groupStep t) [])
    rw [hms]
    exact ⟨ms, rfl⟩
  · intro res hres k m hm
    obtain ⟨hne, -⟩ := aggregate_ok_mem dataset regions t res hres k m hm
    obtain ⟨r, hr⟩ := List.exists_mem_of_ne_nil _ hne
    have h1 := List.mem_filter.mp hr
    have h2 := List.mem_filter.mp h1.1
    have hk : r.region = k := of_decide_eq_true h1.2
    have hreg : r.region ∈ regions := of_decide_eq_true h2.2
    exact ⟨hk ▸ hreg, r, h2.1, hk⟩

/-- Witness for C3 at concrete inputs: a matching region succeeds, a dataset
with no matching record fails with `noMatchingData`. -/
theorem aggregate_no_matching_data_witness :
    aggregate exampleDataset ["ap-south"] 10 = some AggResult.noMatchingData :=
  (aggregate_no_matching_data exampleDataset ["ap-south"] 10).1.mpr
    (by with_unfolding_all decide)

/-- Claim C4: every reported region's `breaches` equals the number of that
region's filtered records whose latency strictly exceeds the threshold;
consequently a threshold at or above every latency of the region yields `0`
and a threshold below every latency yields the region's record count. -/
theorem aggregate_breaches_count (dataset : List LatencyRecord)
    (regions : List String) (t : ℚ) (res : List (String × RegionMetrics))
    (hagg : aggregate dataset regions t = some (AggResult.ok res))
    (k : String) (m : RegionMetrics) (hm : (k, m) ∈ res) :
    m.breaches = ((dataset.filter (fun r => decide (r.region ∈ regions))).filter
        (fun r => decide (r.region = k))).countP
      (fun r => decide (t < r.latency_ms)) ∧
    ((∀ r ∈ (dataset.filter (fun r => decide (r.region ∈ regions))).filter
        (fun r => decide (r.region = k)), r.latency_ms ≤ t) → m.breaches = 0) ∧
    ((∀ r ∈ (dataset.filter (fun r => decide (r.region ∈ regions))).filter
        (fun r => decide (r.region = k)), t < r.latency_ms) →
      m.breaches = ((dataset.filter (fun r => decide (r.region ∈ regions))).filter
        (fun r => decide (r.region = k))).length) := by
  obtain ⟨hne, hbr⟩ := aggregate_ok_mem dataset regions t res hagg k m hm
  refine ⟨hbr, ?_, ?_⟩
  · intro hall
    rw [hbr, List.countP_eq_zero]
    intro r hr
    simp [not_lt.mpr (hall r hr)]
  · intro hall
    rw [hbr, List.countP_eq_length]
    intro r hr
    simp [hall r hr]

/-- Witness for C4 at the spec's concrete scenario. -/
theorem aggregate_breaches_count_witness :
    exampleMetrics.breaches =
      ((exampleDataset.filter (fun r => decide (r.region ∈ ["us-east"]))).filter
        (fun r => decide (r.region = "us-east"))).countP
        (fun r => decide ((150 : ℚ) < r.latency_ms)) :=
  (aggregate_breaches_count exampleDataset ["us-east"] 150
    [("us-east", exampleMetrics)] (by with_unfolding_all decide) "us-east"
    exampleMetrics (by with_unfolding_all decide)).1

/-- Claim C5: every region key of a successful result has at least one
contributing filtered record, and its breach count never exceeds the number
of records contributing to that region's averages. -/
theorem aggregate_result_invariant (dataset : List LatencyRecord)
    (regions : List String) (t : ℚ) (res : List (String × RegionMetrics))
    (hagg : aggregate dataset regions t = some (AggResult.ok res))
    (k : String) (m : RegionMetrics) (hm : (k, m) ∈ res) :
    (∃ r ∈ dataset.filter (fun r => decide (r.region ∈ regions)),
      r.region = k) ∧
    m.breaches ≤ ((dataset.filter (fun r => decide (r.region ∈ regions))).filter
        (fun r => decide (r.region = k))).length := by
  obtain ⟨hne, hbr⟩ := aggregate_ok_mem dataset regions t res hagg k m hm
  constructor
  · obtain ⟨r, hr⟩ := List.exists_mem_of_ne_nil _ hne
    have h1 := List.mem_filter.mp hr
    exact ⟨r, h1.1, of_decide_eq_true h1.2⟩
  · rw [hbr]
    exact List.countP_le_length _

/-- Witness for C5 at the spec's concrete scenario. -/
theorem aggregate_result_invariant_witness :
    exampleMetrics.breaches ≤
      ((exampleDataset.filter (fun r => decide (r.region ∈ ["us-east"]))).filter
        (fun r => decide (r.region = "us-east"))).length :=
  (aggregate_result_invariant exampleDataset ["us-east"] 150
    [("us-east", exampleMetrics)] (by with_unfolding_all decide) "us-east"
    exampleMetrics (by with_unfolding_all decide)).2

/-- Counterexample to claim C9 as stated: when the primary file exists but
cannot be parsed, `load_latency_data` does not attempt the fallback and does
not fail with the "file not found" error.  With a perfectly good fallback it
still fails, and with no fallback it fails with the parse error rather than
`dataUnavailable`. -/
theorem load_primary_unparsable_counterexample :
    load_latency_data FileState.unparsable (FileState.parsed exampleDataset) ≠
        LoadOutcome.ok exampleDataset ∧
    load_latency_data FileState.unparsable FileState.absent ≠
        LoadOutcome.dataUnavailable :=
  ⟨fun h => LoadOutcome.noConfusion h, fun h => LoadOutcome.noConfusion h⟩

/-- Claim C9 (amended): `load_latency_data` consults the fallback only when
the primary file is missing; it fails with `dataUnavailable` exactly when
both files are missing; a present-but-unparsable file propagates a distinct
parse error (without consulting the fallback when it is the primary); and a
successful load returns exactly the dataset parsed from the file actually
read — never an empty dataset in place of an error. -/
theorem load_latency_data_spec (primary fallback : FileState) :
    (load_latency_data primary fallback = LoadOutcome.dataUnavailable ↔
      primary = FileState.absent ∧ fallback = FileState.absent) ∧
    (∀ d, load_latency_data primary fallback = LoadOutcome.ok d ↔
      (primary = FileState.parsed d ∨
        (primary = FileState.absent ∧ fallback = FileState.parsed d))) ∧
    (load_latency_data primary fallback = LoadOutcome.parseFailure ↔
      (primary = FileState.unparsable ∨
        (primary = FileState.absent ∧ fallback = FileState.unparsable))) := by
  cases primary <;> cases fallback <;> simp [load_latency_data]
